import Mathlib

/-!
Verification of the sandhi-splitting engine (`src/sandhi.rs`).

The engine's strings use a single-byte-per-symbol transliteration scheme
(SLP1), so a Rust `&str` is modelled as a `List Char` of symbols and Rust
byte indices coincide with symbol indices.  The `MultiMap<String, (String,
String)>` rule table is modelled as the list of its insert calls in
insertion order: `get_vec` collects the values of a key in insertion order,
exactly as the `multimap` crate returns them, and `keys` iteration is only
used for the maximum key length, which is insensitive to duplicates.
A Rust panic is modelled as `Option.none`.
-/

namespace Sandhi

/-- A symbol string: one `Char` per transliteration symbol. -/
abbrev Str := List Char

/-- Shorthand turning a string literal into its symbol list. -/
def str (s : String) : Str := s.data

/-- The rule table `MultiMap<String, (String, String)>`, as its entries in
insertion order. -/
abbrev SandhiMap := List (Str × (Str × Str))

/-- `rules.get_vec(k)`: all values inserted under `k`, in insertion order;
`none` when the key is absent. -/
def get_vec (rules : SandhiMap) (k : Str) : Option (List (Str × Str)) :=
  let v := (rules.filter (fun e => e.1 == k)).map (fun e => e.2)
  if v.isEmpty then none else some v

/-- `&input[i..j]` on symbol indices. -/
def slice (input : Str) (i j : Nat) : Str := (input.take j).drop i

/-- The candidate built from a rule value `(f, s)` at window `[i, j)`:
`(input[0..i] + f, s + input[j..])`. -/
def emit (input : Str) (i j : Nat) (p : Str × Str) : Str × Str :=
  (input.take i ++ p.1, p.2 ++ input.drop j)

/-- The candidates pushed by the `match rules.get_vec(combination)` arm for a
fixed `i` and `j`. -/
def jblock (input : Str) (rules : SandhiMap) (i j : Nat) : List (Str × Str) :=
  match get_vec rules (slice input i j) with
  | some pairs => pairs.map (emit input i j)
  | none => []

/-- The values taken by the loop `for i in (1..=len_input).rev()`:
`[L, L-1, ..., 1]`. -/
def iList (L : Nat) : List Nat := (List.range L).map (fun t => L - t)

/-- The values taken by the loop `for j in i..cmp::min(len_input, i +
len_longest_key + 1)`: `[i, i+1, ...]` up to that exclusive bound. -/
def jList (L K i : Nat) : List Nat :=
  (List.range (min L (i + K + 1) - i)).map (fun d => i + d)

/-- The loop body of `split` once the longest-key length `K` is known. -/
def splitCore (input : Str) (rules : SandhiMap) (K : Nat) : List (Str × Str) :=
  (iList input.length).flatMap (fun i =>
    (input.take i, input.drop i) ::
      (jList input.length K i).flatMap (fun j => jblock input rules i j))

/-- `rules.keys().map(|x| x.len()).max()`: `none` on an empty table. -/
def len_longest_key (rules : SandhiMap) : Option Nat :=
  (rules.map (fun e => e.1.length)).max?

/-- `split` from `src/sandhi.rs`.  The `.expect("Map is empty")` panic on an
empty rule table is modelled as `none`. -/
def split (input : Str) (rules : SandhiMap) : Option (List (Str × Str)) :=
  match len_longest_key rules with
  | none => none
  | some K => some (splitCore input rules K)

/-- The allowed word-final symbols of `is_good_first`. -/
def good_finals : Str := str "aAiIuUfFxXeEoOHkNwRtpnmsr"

/-- `is_good_first` from `src/sandhi.rs`: checks the last symbol. -/
def is_good_first (text : Str) : Bool :=
  match text.getLast? with
  | some c => good_finals.contains c
  | none => true

/-- The four semivowel symbols of the `is_good_second` pattern. -/
def semivowels : Str := str "yrlv"

/-- The sparsha consonant class of the `is_good_second` pattern. -/
def sparsha : Str := str "kKgGNcCjJYwWqQRtTdDnpPbBm"

/-- `is_good_second` from `src/sandhi.rs`: the anchored pattern
`^[yrlv][kKgGNcCjJYwWqQRtTdDnpPbBm]` must not match. -/
def is_good_second (text : Str) : Bool :=
  match text with
  | c1 :: c2 :: _ => !(semivowels.contains c1 && sparsha.contains c2)
  | _ => true

/-- `is_good_split` from `src/sandhi.rs`. -/
def is_good_split (text first second : Str) : Bool :=
  let is_recursive := text == second
  is_good_first first && is_good_second second && !is_recursive

/-- The rule table of the repository's `test_split`: one key `"e"` with the
single value `("a", "i")`. -/
def rulesE : SandhiMap := [(str "e", (str "a", str "i"))]

end Sandhi

namespace Sandhi

/-- The outer loop visits exactly the cut positions `1 ≤ i ≤ L`. -/
theorem mem_iList {L i : Nat} : i ∈ iList L ↔ 1 ≤ i ∧ i ≤ L := by
  simp only [iList, List.mem_map, List.mem_range]
  constructor
  · rintro ⟨t, ht, rfl⟩
    omega
  · rintro ⟨h1, h2⟩
    exact ⟨L - i, by omega, by omega⟩

/-- The inner loop visits exactly the window ends
`i ≤ j < min L (i + K + 1)`. -/
theorem mem_jList {L K i j : Nat} :
    j ∈ jList L K i ↔ i ≤ j ∧ j < min L (i + K + 1) := by
  simp only [jList, List.mem_map, List.mem_range]
  constructor
  · rintro ⟨d, hd, rfl⟩
    omega
  · rintro ⟨h1, h2⟩
    exact ⟨j - i, by omega, by omega⟩

/-- The chunk a `flatMap` produces for one element of the list is a
contiguous segment of the whole result. -/
theorem flatMap_chunk {α β : Type} {a : α} {xs : List α} (f : α → List β)
    (h : a ∈ xs) : ∃ l1 l2, xs.flatMap f = l1 ++ f a ++ l2 := by
  obtain ⟨s, t, rfl⟩ := List.append_of_mem h
  exact ⟨s.flatMap f, t.flatMap f, by
    simp [List.flatMap_append, List.flatMap_cons, List.append_assoc]⟩

/-- C3: with any rule table having a longest key, every cut position
`1 ≤ i ≤ L` contributes its default split `(input[0..i], input[i..])` to the
result of `split`. -/
theorem default_split_mem (input : Str) (rules : SandhiMap) (K i : Nat)
    (hK : len_longest_key rules = some K) (h1 : 1 ≤ i)
    (h2 : i ≤ input.length) :
    ∃ r, split input rules = some r ∧ (input.take i, input.drop i) ∈ r := by
  refine ⟨splitCore input rules K, by simp [split, hK], ?_⟩
  exact List.mem_flatMap.mpr
    ⟨i, mem_iList.mpr ⟨h1, h2⟩, List.mem_cons_self _ _⟩

/-- Witness for C3 at `input = "ceti"`, `i = 2`. -/
theorem default_split_mem_witness :
    ∃ r, split (str "ceti") rulesE = some r ∧
      ((str "ceti").take 2, (str "ceti").drop 2) ∈ r :=
  default_split_mem (str "ceti") rulesE 1 2 (by decide) (by decide) (by decide)

/-- C2 counterexample: with the table `{"e" ↦ [("a", "i")]}` and input
`"ce"`, the positions `i = 1`, `j = 2` satisfy every side condition of the
claim — `j ≤ min(L, i + maxKeyLen)`, `input[1..2] = "e"`, `("a", "i")`
stored under `"e"` — yet `split` returns only the two default splits: the
pair `("ca", "i")` is absent, because the code's window `j <
min(L, i + maxKeyLen + 1)` never lets a key match reach the end of the
input. -/
theorem rule_window_cex :
    len_longest_key rulesE = some 1 ∧
    slice (str "ce") 1 2 = str "e" ∧
    get_vec rulesE (str "e") = some [(str "a", str "i")] ∧
    (1 ≤ 1 ∧ 1 ≤ 2 ∧ 2 ≤ min (str "ce").length (1 + 1)) ∧
    split (str "ce") rulesE =
      some [(str "ce", str ""), (str "c", str "e")] ∧
    ¬ ((str "ca", str "i") ∈ [(str "ce", str ""), (str "c", str "e")]) := by
  decide

/-- C2 amended: for positions `1 ≤ i ≤ j` with
`j < min(L, maxKeyLen + i + 1)` (the code's window: `j` stays strictly
below `L`, so `j ≤ min(L-1, i + maxKeyLen)` rather than the claimed
`j ≤ min(L, i + maxKeyLen)`) and `input[i..j]` a key with value list
`pairs`, the whole block `pairs.map (emit input i j)` occurs contiguously
and in insertion order inside the result of `split`, and every stored value
`p` contributes its pair `(input[0..i] + p.1, p.2 + input[j..])` to it. -/
theorem rule_match_block (input : Str) (rules : SandhiMap) (K i j : Nat)
    (pairs : List (Str × Str)) (p : Str × Str)
    (hK : len_longest_key rules = some K)
    (h1 : 1 ≤ i) (h2 : i ≤ j) (h3 : j < min input.length (i + K + 1))
    (hg : get_vec rules (slice input i j) = some pairs) (hp : p ∈ pairs) :
    ∃ l1 l2, split input rules =
      some (l1 ++ pairs.map (emit input i j) ++ l2) ∧
      emit input i j p ∈ pairs.map (emit input i j) := by
  have hiL : i ≤ input.length := by omega
  obtain ⟨a1, a2, ha⟩ := flatMap_chunk
    (fun i => (input.take i, input.drop i) ::
      (jList input.length K i).flatMap (fun j => jblock input rules i j))
    (mem_iList.mpr ⟨h1, hiL⟩)
  obtain ⟨b1, b2, hb⟩ := flatMap_chunk (fun j => jblock input rules i j)
    (mem_jList.mpr ⟨h2, h3⟩)
  have hjb : jblock input rules i j = pairs.map (emit input i j) := by
    simp only [jblock, hg]
  refine ⟨a1 ++ (input.take i, input.drop i) :: b1, b2 ++ a2,
    ?_, List.mem_map_of_mem _ hp⟩
  simp only [split, hK, Option.some.injEq]
  rw [splitCore, ha, hb, hjb]
  simp [List.append_assoc]

/-- Witness for C2 at the repository's own test: input `"ceti"`, `i = 1`,
`j = 2`, key `"e"`. -/
theorem rule_match_block_witness :
    ∃ l1 l2, split (str "ceti") rulesE =
      some (l1 ++ [(str "a", str "i")].map (emit (str "ceti") 1 2) ++ l2) ∧
      emit (str "ceti") 1 2 (str "a", str "i") ∈
        [(str "a", str "i")].map (emit (str "ceti") 1 2) :=
  rule_match_block (str "ceti") rulesE 1 1 2 [(str "a", str "i")]
    (str "a", str "i") (by decide) (by decide) (by decide) (by decide)
    (by decide) (by decide)

/-- C4: on an empty rule table, `split` hits the
`.expect("Map is empty")` panic (modelled as `none`) for every input,
including the empty one; it never returns a sequence. -/
theorem split_empty_rules_fails : ∀ input : Str, split input [] = none :=
  fun _ => rfl

/-- Witness for C4 at input `"x"`. -/
theorem split_empty_rules_fails_witness : split (str "x") [] = none :=
  split_empty_rules_fails (str "x")

/-- C5: on a non-empty rule table, `split` never panics: it returns a
sequence for every input, and the empty input yields the empty sequence. -/
theorem split_total_nonempty_rules (input : Str) (rules : SandhiMap)
    (hne : rules ≠ []) :
    (∃ r, split input rules = some r) ∧ split [] rules = some [] := by
  rcases hK : len_longest_key rules with _ | K
  · rw [len_longest_key, List.max?_eq_none_iff, List.map_eq_nil_iff] at hK
    exact absurd hK hne
  · exact ⟨⟨splitCore input rules K, by simp [split, hK]⟩,
      by simp [split, hK, splitCore, iList]⟩

/-- Witness for C5 at the test table and input `"a"`. -/
theorem split_total_nonempty_rules_witness :
    (∃ r, split (str "a") rulesE = some r) ∧ split [] rulesE = some [] :=
  split_total_nonempty_rules (str "a") rulesE (by decide)

/-- The length of the longest first-component suffix stored in the table. -/
def max_suffix_len (rules : SandhiMap) : Nat :=
  (rules.map (fun e => e.2.1.length)).foldr max 0

/-- Every member of a list of naturals is bounded by its `foldr max 0`. -/
theorem le_foldr_max {l : List Nat} {a : Nat} (h : a ∈ l) :
    a ≤ l.foldr max 0 := by
  induction l with
  | nil => cases h
  | cons b t ih =>
    rcases List.mem_cons.mp h with rfl | h'
    · exact le_max_left _ _
    · exact le_trans (ih h') (le_max_right _ _)

/-- Every value returned by `get_vec` is the value component of some table
entry. -/
theorem get_vec_mem {rules : SandhiMap} {k : Str} {pairs : List (Str × Str)}
    {p : Str × Str} (hg : get_vec rules k = some pairs) (hp : p ∈ pairs) :
    ∃ e ∈ rules, e.2 = p := by
  simp only [get_vec] at hg
  split at hg
  · cases hg
  · obtain rfl : _ = pairs := Option.some.inj hg
    obtain ⟨e, he, rfl⟩ := List.mem_map.mp hp
    exact ⟨e, List.mem_of_mem_filter he, rfl⟩

/-- The suffix of any value reachable through `get_vec` is at most
`max_suffix_len` long. -/
theorem suffix_len_le {rules : SandhiMap} {k : Str}
    {pairs : List (Str × Str)} {p : Str × Str}
    (hg : get_vec rules k = some pairs) (hp : p ∈ pairs) :
    p.1.length ≤ max_suffix_len rules := by
  obtain ⟨e, he, rfl⟩ := get_vec_mem hg hp
  exact le_foldr_max (List.mem_map_of_mem (fun e => e.2.1.length) he)

/-- Every candidate in `splitCore` is either a default split at some cut
`1 ≤ i ≤ L` or the emission of a stored value at a window
`i ≤ j < min L (i + K + 1)`. -/
theorem mem_splitCore {input : Str} {rules : SandhiMap} {K : Nat}
    {x : Str × Str} (hx : x ∈ splitCore input rules K) :
    (∃ i, 1 ≤ i ∧ i ≤ input.length ∧ x = (input.take i, input.drop i)) ∨
    (∃ i j pairs p, 1 ≤ i ∧ i ≤ j ∧ j < min input.length (i + K + 1) ∧
      get_vec rules (slice input i j) = some pairs ∧ p ∈ pairs ∧
      x = emit input i j p) := by
  simp only [splitCore, List.mem_flatMap] at hx
  obtain ⟨i, hi, hx⟩ := hx
  obtain ⟨h1, h2⟩ := mem_iList.mp hi
  rcases List.mem_cons.mp hx with rfl | hx'
  · exact Or.inl ⟨i, h1, h2, rfl⟩
  · obtain ⟨j, hj, hxj⟩ := List.mem_flatMap.mp hx'
    obtain ⟨hij, hjlt⟩ := mem_jList.mp hj
    unfold jblock at hxj
    split at hxj
    · next pairs hgv =>
        obtain ⟨p, hp, rfl⟩ := List.mem_map.mp hxj
        exact Or.inr ⟨i, j, pairs, p, h1, hij, hjlt, hgv, hp, rfl⟩
    · cases hxj

/-- A table whose single value carries a three-symbol suffix. -/
def rulesLong : SandhiMap := [(str "e", (str "aaa", str "i"))]

/-- C6 counterexample: with the non-empty table `{"e" ↦ [("aaa", "i")]}` and
the non-empty input `"cet"` (length 3), `split` emits the candidate
`("caaa", "it")` whose first component has length 4 > 3: the claimed upper
bound `L` on the first component's length fails for rule-derived
candidates whose suffix outgrows the removed window. -/
theorem first_length_cex :
    (str "cet" ≠ [] ∧ rulesLong ≠ []) ∧
    (str "caaa", str "it") ∈ (split (str "cet") rulesLong).getD [] ∧
    ¬ ((str "caaa").length ≤ (str "cet").length) := by
  decide

/-- C6 amended: every candidate's first component has length at least 1,
and at most `L + S` where `S` is the length of the longest suffix stored in
the table (default splits stay within `[1, L]`; rule-derived firsts have
length `i + |suffix|`, which can exceed `L`). -/
theorem first_length_bounds (input : Str) (rules : SandhiMap) (K : Nat)
    (r : List (Str × Str)) (x : Str × Str)
    (hK : len_longest_key rules = some K) (hne : input ≠ [])
    (hr : split input rules = some r) (hx : x ∈ r) :
    1 ≤ x.1.length ∧
      x.1.length ≤ input.length + max_suffix_len rules := by
  have hr' : r = splitCore input rules K := by
    simp only [split, hK, Option.some.injEq] at hr
    exact hr.symm
  rcases mem_splitCore (hr' ▸ hx) with ⟨i, h1, h2, rfl⟩ |
    ⟨i, j, pairs, p, h1, hij, hjlt, hgv, hp, rfl⟩
  · simp only [List.length_take]
    omega
  · have hsuf : p.1.length ≤ max_suffix_len rules := suffix_len_le hgv hp
    simp only [emit, List.length_append, List.length_take]
    omega

/-- Witness for C6 at input `"cet"` and the long-suffix table, on the
candidate `("caaa", "it")`. -/
theorem first_length_bounds_witness :
    1 ≤ (str "caaa", str "it").1.length ∧
      (str "caaa", str "it").1.length ≤
        (str "cet").length + max_suffix_len rulesLong :=
  first_length_bounds (str "cet") rulesLong 1
    [(str "cet", str ""), (str "ce", str "t"), (str "c", str "et"),
      (str "caaa", str "it")]
    (str "caaa", str "it") (by decide) (by decide) (by decide) (by decide)

/-- C7: `is_good_split` holds exactly when both component filters pass and
`second` differs from the original text; in particular it is false whenever
`second` equals the original, whatever the filters say. -/
theorem is_good_split_iff (original first second : Str) :
    is_good_split original first second = true ↔
      (is_good_first first = true ∧ is_good_second second = true ∧
        second ≠ original) := by
  simp only [is_good_split, Bool.and_eq_true, Bool.not_eq_true',
    beq_eq_false_iff_ne, ne_comm, and_assoc]

/-- Witness for C7 at `original = "ab"`, `first = "a"`, `second = "b"`. -/
theorem is_good_split_iff_witness :
    is_good_split (str "ab") (str "a") (str "b") = true ↔
      (is_good_first (str "a") = true ∧ is_good_second (str "b") = true ∧
        str "b" ≠ str "ab") :=
  is_good_split_iff (str "ab") (str "a") (str "b")

/-- C8: `is_good_first` accepts the empty string, depends only on the last
symbol, equals membership of that last symbol in the fixed allowed set, and
classifies the documented examples accordingly. -/
theorem is_good_first_spec :
    is_good_first [] = true ∧
    (∀ (t1 t2 : Str) (c : Char),
      is_good_first (t1 ++ [c]) = is_good_first (t2 ++ [c])) ∧
    (∀ (t : Str) (c : Char),
      is_good_first (t ++ [c]) = good_finals.contains c) ∧
    (is_good_first (str "rAma") = true ∧ is_good_first (str "nadI") = true ∧
      is_good_first (str "pitf") = true) ∧
    (is_good_first (str "PalaM") = false ∧
      is_good_first (str "zaz") = false ∧
      is_good_first (str "vAc") = false) := by
  refine ⟨rfl, ?_, ?_, by decide, by decide⟩
  · intro t1 t2 c
    simp [is_good_first, List.getLast?_concat]
  · intro t c
    simp [is_good_first, List.getLast?_concat]

/-- C9: `is_good_second` is false exactly on strings opening with a
semivowel immediately followed by a sparsha consonant, and classifies the
documented examples accordingly; as a Lean function it is total by
construction. -/
theorem is_good_second_spec :
    (∀ text : Str, is_good_second text = false ↔
      ∃ c1 c2 rest, text = c1 :: c2 :: rest ∧
        semivowels.contains c1 = true ∧ sparsha.contains c2 = true) ∧
    is_good_second (str "rmakzetre") = false ∧
    is_good_second (str "yogena") = true ∧
    is_good_second (str "vraja") = true := by
  refine ⟨?_, by decide, by decide, by decide⟩
  intro text
  match text with
  | [] => simp [is_good_second]
  | [c] => simp [is_good_second]
  | c1 :: c2 :: rest =>
    simp only [is_good_second, Bool.not_eq_false', Bool.and_eq_true]
    constructor
    · rintro ⟨h1, h2⟩
      exact ⟨c1, c2, rest, rfl, h1, h2⟩
    · rintro ⟨a, b, r, heq, h1, h2⟩
      obtain ⟨rfl, rfl, rfl⟩ : c1 = a ∧ c2 = b ∧ rest = r := by
        simpa using heq
      exact ⟨h1, h2⟩

/-- When `i < min L (i + K + 1)`, the window loop starts at `j = i`. -/
theorem jList_cons {L K i : Nat} (h : i < min L (i + K + 1)) :
    ∃ rest, jList L K i = i :: rest := by
  obtain ⟨n, hn⟩ : ∃ n, min L (i + K + 1) - i = n + 1 := by
    refine ⟨min L (i + K + 1) - i - 1, ?_⟩
    omega
  refine ⟨((List.range n).map Nat.succ).map (fun d => i + d), ?_⟩
  rw [jList, hn, List.range_succ_eq_map, List.map_cons]
  simp

/-- The empty slice `input[i..i]` really is the empty string. -/
theorem slice_self (input : Str) (i : Nat) : slice input i i = [] := by
  apply List.drop_eq_nil_of_le
  rw [List.length_take]
  exact Nat.min_le_left _ _

/-- C10: at every inner cut `1 ≤ i < L` the first window is `j = i`, whose
key is the empty substring `input[i..i]`; when the table stores values
under the empty key, their emissions `(input[0..i] + f, s + input[i..])`
follow the default split at `i` immediately and in insertion order. -/
theorem empty_key_block (input : Str) (rules : SandhiMap) (K i : Nat)
    (pairs : List (Str × Str))
    (hK : len_longest_key rules = some K)
    (h1 : 1 ≤ i) (h2 : i < input.length)
    (hg : get_vec rules [] = some pairs) :
    ∃ l1 l2, split input rules =
      some (l1 ++ ((input.take i, input.drop i) ::
        pairs.map (emit input i i)) ++ l2) := by
  have hjlt : i < min input.length (i + K + 1) := by omega
  have hiL : i ≤ input.length := by omega
  obtain ⟨a1, a2, ha⟩ := flatMap_chunk
    (fun i => (input.take i, input.drop i) ::
      (jList input.length K i).flatMap (fun j => jblock input rules i j))
    (mem_iList.mpr ⟨h1, hiL⟩)
  obtain ⟨rest, hrest⟩ := jList_cons hjlt
  have hjb : jblock input rules i i = pairs.map (emit input i i) := by
    simp only [jblock, slice_self, hg]
  refine ⟨a1, rest.flatMap (fun j => jblock input rules i j) ++ a2, ?_⟩
  simp only [split, hK, Option.some.injEq]
  rw [splitCore, ha, hrest, List.flatMap_cons, hjb]
  simp [List.append_assoc]

/-- A table whose only key is the empty string. -/
def rulesEmptyKey : SandhiMap := [(([] : Str), (str "x", str "y"))]

/-- Witness for C10 at input `"ab"`, cut `i = 1`, with the empty-key
table. -/
theorem empty_key_block_witness :
    ∃ l1 l2, split (str "ab") rulesEmptyKey =
      some (l1 ++ (((str "ab").take 1, (str "ab").drop 1) ::
        [(str "x", str "y")].map (emit (str "ab") 1 1)) ++ l2) :=
  empty_key_block (str "ab") rulesEmptyKey 0 1 [(str "x", str "y")]
    (by decide) (by decide) (by decide) (by decide)

/-- C1: with the single-rule table mapping `"e"` to `[("a", "i")]`,
`split "ceti"` returns exactly the five candidates of the ordering contract,
in order: descending cut position, default split first within a group, then
the rule-derived candidate. -/
theorem split_ceti_ordering :
    split (str "ceti") rulesE =
      some [(str "ceti", str ""), (str "cet", str "i"), (str "ce", str "ti"),
        (str "c", str "eti"), (str "ca", str "iti")] := by
  decide

end Sandhi
